import Mathlib

/-!
Formal model of the core of the geocaching game (files `src/board.ts` and the
final revision of `src/main.ts`): the cell registry (`Board`), the
deterministic cache generator, the memento persistence layer, and the
withdraw/deposit coin operations.

Numbers are idealised: TypeScript `number` values that hold grid coordinates
and serial numbers are modelled as `Int`/`Nat`, and the continuous
latitude/longitude coordinates and the luck values as `ℚ`.  The deterministic
luck function `luck : string -> [0,1)` lives in `src/luck.ts`, which is not
part of the two analysed files; all definitions are therefore parameterised
by an arbitrary function `luck : String → ℚ`, which also makes luck's
determinism (it is a function) part of the model.
-/

namespace Demo3

/-- Grid cell, `interface Cell` of `board.ts`/`main.ts`: an integer pair. -/
structure Cell where
  i : Int
  j : Int
  deriving DecidableEq, Repr

/-- A coin, `interface Coin` of `main.ts`: origin cell plus serial number. -/
structure Coin where
  location : Cell
  serialNumber : Nat
  deriving DecidableEq, Repr

/-- A cache, `interface Cache` of `main.ts`: an ordered coin list and a position. -/
structure Cache where
  coins : List Coin
  position : Cell
  deriving DecidableEq, Repr

/-! ### Decimal rendering of numbers

JavaScript renders the integer-valued numbers appearing in cell keys and in
`JSON.stringify` output in plain decimal notation (digits, with a leading `-`
for negative values).  We build that rendering from scratch so that we can
reason about it. -/

/-- The decimal digit character for `n < 10`. -/
def digitChar (n : Nat) : Char :=
  if n = 0 then '0' else if n = 1 then '1' else if n = 2 then '2'
  else if n = 3 then '3' else if n = 4 then '4' else if n = 5 then '5'
  else if n = 6 then '6' else if n = 7 then '7' else if n = 8 then '8' else '9'

/-- Numeric value of a decimal digit character. -/
def digitVal (c : Char) : Nat := c.toNat - 48

/-- Fuel-driven digit extraction (the fuel only bounds the recursion depth). -/
def natDigitsAux (fuel : Nat) (n : Nat) : List Char :=
  match fuel with
  | 0 => []
  | fuel + 1 =>
    if n < 10 then [digitChar n]
    else natDigitsAux fuel (n / 10) ++ [digitChar (n % 10)]

/-- Decimal digit string of a natural number, most significant digit first. -/
def natDigits (n : Nat) : List Char := natDigitsAux (n + 1) n

/-- Decimal digit string of an integer (leading `-` when negative). -/
def intDigits (i : Int) : List Char :=
  if i < 0 then '-' :: natDigits i.natAbs else natDigits i.toNat

/-- Accumulator-style evaluation of a digit string back to a number. -/
def ofDigitsAux : Nat → List Char → Nat
  | acc, [] => acc
  | acc, c :: cs => ofDigitsAux (acc * 10 + digitVal c) cs

/-! ### Parsing numbers back out of strings

`JSON.parse` reads the decimal numbers back.  We model the number-reading
part with a greedy digit scanner. -/

/-- Greedy digit scanner: consumes leading digits into an accumulator. -/
def parseNatLoop : Nat → List Char → Nat × List Char
  | acc, [] => (acc, [])
  | acc, c :: cs =>
    if c.isDigit then parseNatLoop (acc * 10 + digitVal c) cs else (acc, c :: cs)

/-- Reads a decimal natural number; fails when no leading digit is present. -/
def parseNat (s : List Char) : Option (Nat × List Char) :=
  match s with
  | [] => none
  | c :: cs => if c.isDigit then some (parseNatLoop (digitVal c) cs) else none

/-- Reads a decimal integer: an optional leading minus sign, then digits. -/
def parseInt (s : List Char) : Option (Int × List Char) :=
  match s with
  | [] => none
  | c :: cs =>
    if c = '-' then (parseNat cs).map (fun p => (-(p.1 : Int), p.2))
    else (parseNat (c :: cs)).map (fun p => ((p.1 : Int), p.2))

/-- The first character of `l`, if any, is not a digit. -/
def headNonDigit : List Char → Bool
  | [] => true
  | c :: _ => !c.isDigit

/-! ### Cell keys

Both files key cells by the string `"i,j"`: `board.ts` line 23 uses
`[i, j].toString()` and `main.ts` lines 478 and 519 use the template
string with `i`, a comma and `j`; for integer-valued numbers both produce
the decimal rendering of `i`, a comma, and the decimal rendering of `j`. -/

/-- The string key `"i,j"` of a cell. -/
def cellKey (c : Cell) : String :=
  String.mk (intDigits c.i ++ ',' :: intDigits c.j)

/-! ### The cell registry (`Board`, `src/board.ts`) -/

/-- A geographic point (`leaflet.LatLng`), idealised with rational coordinates. -/
structure LatLng where
  lat : ℚ
  lng : ℚ
  deriving DecidableEq, Repr

/-- State of a `Board` (`src/board.ts` lines 8-19): the tile width, the tile
visibility radius, and the private mutable `knownCells` map, modelled as an
association list from string keys to cells (first binding wins, matching a
JS `Map` whose keys are never overwritten). -/
structure Board where
  tileWidth : ℚ
  tileVisibilityRadius : Nat
  knownCells : List (String × Cell)
  deriving DecidableEq, Repr

/-- The `Board` constructor: the parameters plus an empty registry. -/
def Board.new (tileWidth : ℚ) (tileVisibilityRadius : Nat) : Board :=
  ⟨tileWidth, tileVisibilityRadius, []⟩

/-- `getCanonicalCell` (board.ts lines 21-30): look up the key `"i,j"`; on a
miss first store the given cell under that key; return the cell stored under
the key.  The second component is the registry after the call (the source
mutates `this.knownCells` in place). -/
def getCanonicalCell (b : Board) (cell : Cell) : Cell × Board :=
  match b.knownCells.lookup (cellKey cell) with
  | some c0 => (c0, b)
  | none =>
    (cell, ⟨b.tileWidth, b.tileVisibilityRadius, (cellKey cell, cell) :: b.knownCells⟩)

/-- `getCellForPoint` (board.ts lines 32-37): floor-divide both coordinates
by the tile width and canonicalize. -/
def getCellForPoint (b : Board) (point : LatLng) : Cell × Board :=
  getCanonicalCell b ⟨⌊point.lat / b.tileWidth⌋, ⌊point.lng / b.tileWidth⌋⟩

/-- The values taken by the loop counters of `getCellsNearPoint`
(board.ts lines 53-62): `-r, -r+1, ..., r`, in ascending order. -/
def visOffsets (r : Nat) : List Int :=
  (List.range (2 * r + 1)).map (fun (k : Nat) => (k : Int) - (r : Int))

/-- Body of the inner loop of `getCellsNearPoint` (board.ts lines 63-68):
canonicalize the offset cell and push it onto the result list. -/
def nearStep (oi oj di : Int) (acc : List Cell × Board) (dj : Int) :
    List Cell × Board :=
  let cb := getCanonicalCell acc.2 ⟨oi + di, oj + dj⟩
  (acc.1 ++ [cb.1], cb.2)

/-- Body of the outer loop of `getCellsNearPoint`: one full inner loop. -/
def nearRow (oi oj : Int) (r : Nat) (acc : List Cell × Board) (di : Int) :
    List Cell × Board :=
  (visOffsets r).foldl (nearStep oi oj di) acc

/-- `getCellsNearPoint` (board.ts lines 49-73): double loop over the square
of offsets around the point's origin cell, pushing canonicalized cells in
row-major order (outer counter `i`, inner counter `j`, both ascending),
threading the registry state through every call. -/
def getCellsNearPoint (b : Board) (point : LatLng) : List Cell × Board :=
  let op := getCellForPoint b point
  (visOffsets b.tileVisibilityRadius).foldl
    (nearRow op.1.i op.1.j b.tileVisibilityRadius) ([], op.2)

/-- Registry well-formedness: every binding stores a cell under its own key.
It holds for the empty registry and is preserved by every operation. -/
def BoardWF (b : Board) : Prop :=
  ∀ kv ∈ b.knownCells, kv.1 = cellKey kv.2

instance (b : Board) : Decidable (BoardWF b) :=
  List.decidableBAll _ _

/-! ### Gameplay constants (`main.ts` lines 333-338) -/

def TILE_DEGREES : ℚ := 1 / 10000

def NEIGHBORHOOD_SIZE : Nat := 8

def CACHE_SPAWN_PROBABILITY : ℚ := 1 / 10

def COIN_PROBABILITY : ℚ := 25

/-! ### The deterministic cache generator (`main.ts`) -/

/-- `generateCache` (main.ts lines 501-516): a cache at the cell whose coin
count is `Math.ceil(luck("i,j") * COIN_PROBABILITY)`; the loop pushes coins
with serial numbers `0, 1, ..., count-1`, each tagged with the cell. -/
def generateCache (luck : String → ℚ) (cell : Cell) : Cache :=
  let numCoins : Int := ⌈luck (cellKey cell) * COIN_PROBABILITY⌉
  ⟨(List.range numCoins.toNat).map (fun k => ⟨cell, k⟩), cell⟩

/-- The spawn decision inside `updateLocalCaches` (main.ts lines 494-498):
of the cells near the player's location, exactly those whose luck value is
strictly below `CACHE_SPAWN_PROBABILITY` get a cache spawned, in the order
`getCellsNearPoint` produced them. -/
def updateLocalCachesSpawns (luck : String → ℚ) (b : Board) (p : LatLng) :
    List Cell :=
  (getCellsNearPoint b p).1.filter
    (fun cell => decide (luck (cellKey cell) < CACHE_SPAWN_PROBABILITY))

/-! ### The memento persistence layer (`main.ts`)

`cacheToMomento` is `JSON.stringify` applied to a `Cache` record; for the
object layouts this program builds it always produces this exact grammar
(object keys in insertion order, integer numbers in plain decimal):

  cache ::= \x7b"coins":[ coin,* ],"position": cell \x7d
  coin  ::= \x7b"location": cell ,"serialNumber": nat \x7d
  cell  ::= \x7b"i": int ,"j": int \x7d

`cacheFromMomento` is `JSON.parse`; we model it as the exact inverse parser
of that grammar, `none` standing for the exception `JSON.parse` raises on
malformed input (the concrete malformed inputs considered in the theorems
below are rejected by `JSON.parse` as well). -/

def litCacheOpen : List Char :=
  ['\x7b', '"', 'c', 'o', 'i', 'n', 's', '"', ':', '[']

def litPosKey : List Char :=
  [',', '"', 'p', 'o', 's', 'i', 't', 'i', 'o', 'n', '"', ':']

def litCoinOpen : List Char :=
  ['\x7b', '"', 'l', 'o', 'c', 'a', 't', 'i', 'o', 'n', '"', ':']

def litSerialKey : List Char :=
  [',', '"', 's', 'e', 'r', 'i', 'a', 'l', 'N', 'u', 'm', 'b', 'e', 'r', '"', ':']

def litCellOpen : List Char :=
  ['\x7b', '"', 'i', '"', ':']

def litJKey : List Char :=
  [',', '"', 'j', '"', ':']

def litClose : List Char :=
  ['\x7d']

/-- The characters `JSON.stringify` produces for a `Cell` record. -/
def cellChars (c : Cell) : List Char :=
  litCellOpen ++ intDigits c.i ++ litJKey ++ intDigits c.j ++ litClose

/-- The characters `JSON.stringify` produces for a `Coin` record. -/
def coinChars (k : Coin) : List Char :=
  litCoinOpen ++ cellChars k.location ++ litSerialKey
    ++ natDigits k.serialNumber ++ litClose

/-- The characters of the comma-separated coin array body. -/
def coinsChars : List Coin → List Char
  | [] => []
  | [k] => coinChars k
  | k :: ks => coinChars k ++ ',' :: coinsChars ks

/-- The characters `JSON.stringify` produces for a `Cache` record. -/
def cacheChars (c : Cache) : List Char :=
  litCacheOpen ++ coinsChars c.coins ++ ']' :: litPosKey
    ++ cellChars c.position ++ litClose

/-- `cacheToMomento` (main.ts lines 468-470): `JSON.stringify(cache)`. -/
def cacheToMomento (c : Cache) : String := String.mk (cacheChars c)

/-- Consume an expected literal prefix. -/
def expectLit : List Char → List Char → Option (List Char)
  | [], s => some s
  | _ :: _, [] => none
  | c :: cs, x :: xs => if x = c then expectLit cs xs else none

/-- Parse one serialized `Cell`. -/
def parseCell (s : List Char) : Option (Cell × List Char) := do
  let s1 ← expectLit litCellOpen s
  let (i, s2) ← parseInt s1
  let s3 ← expectLit litJKey s2
  let (j, s4) ← parseInt s3
  let s5 ← expectLit litClose s4
  pure (⟨i, j⟩, s5)

/-- Parse one serialized `Coin`. -/
def parseCoin (s : List Char) : Option (Coin × List Char) := do
  let s1 ← expectLit litCoinOpen s
  let (loc, s2) ← parseCell s1
  let s3 ← expectLit litSerialKey s2
  let (sn, s4) ← parseNat s3
  let s5 ← expectLit litClose s4
  pure (⟨loc, sn⟩, s5)

/-- Parse a non-empty comma-separated coin sequence up to and including the
closing `]`; the fuel only bounds the number of coins. -/
def parseCoinsNE : Nat → List Char → Option (List Coin × List Char)
  | 0, _ => none
  | fuel + 1, s => do
    let (coin, s1) ← parseCoin s
    match s1 with
    | [] => none
    | c :: rest =>
      if c = ',' then do
        let (coins, s2) ← parseCoinsNE fuel rest
        pure (coin :: coins, s2)
      else if c = ']' then pure ([coin], rest)
      else none

/-- Parse a (possibly empty) serialized coin array body including `]`. -/
def parseCoinList (fuel : Nat) (s : List Char) : Option (List Coin × List Char) :=
  match s with
  | [] => none
  | c :: rest => if c = ']' then some ([], rest) else parseCoinsNE fuel (c :: rest)

/-- Parse one serialized `Cache`. -/
def parseCache (s : List Char) : Option (Cache × List Char) := do
  let s1 ← expectLit litCacheOpen s
  let (coins, s2) ← parseCoinList (s1.length + 1) s1
  let s3 ← expectLit litPosKey s2
  let (pos, s4) ← parseCell s3
  let s5 ← expectLit litClose s4
  pure (⟨coins, pos⟩, s5)

/-- `cacheFromMomento` (main.ts lines 472-474): `JSON.parse(momento)` read
back as a `Cache`; `none` models the exception raised on malformed input. -/
def cacheFromMomento (momento : String) : Option Cache :=
  match parseCache momento.data with
  | some (c, []) => some c
  | _ => none

/-- `storeCache` (main.ts lines 476-481): write the momento into the
string-keyed store under the key `"i,j"` of the cache's position.
`localStorage` is modelled as an association list in which the newest
binding for a key wins, which is exactly `setItem` overwrite semantics. -/
def storeCache (storage : List (String × String)) (cache : Cache) :
    List (String × String) :=
  (cellKey cache.position, cacheToMomento cache) :: storage

/-- `loadCache` (main.ts lines 518-526): read the record under the cell's
key.  A missing record, or a falsy (empty-string) one, falls back to
`generateCache`; a present truthy record is decoded by `cacheFromMomento`,
whose failure (`none`) propagates — there is no fallback on a malformed
record. -/
def loadCache (luck : String → ℚ) (storage : List (String × String))
    (cell : Cell) : Option Cache :=
  match storage.lookup (cellKey cell) with
  | some momento =>
    if momento = "" then some (generateCache luck cell)
    else cacheFromMomento momento
  | none => some (generateCache luck cell)

/-! ### Withdraw and deposit (`bindCachePopup`, `main.ts` lines 559-605) -/

/-- The state the popup button handlers read and mutate: the cache bound to
the popup and the player inventory. -/
structure GameState where
  cache : Cache
  inventory : List Coin
  deriving DecidableEq, Repr

/-- The withdraw handler (main.ts lines 570-585): if the cache has coins,
`shift` the first coin off the cache and `push` it onto the end of the
inventory; otherwise nothing happens. -/
def withdraw (s : GameState) : GameState :=
  match s.cache.coins with
  | [] => s
  | c :: rest => ⟨⟨rest, s.cache.position⟩, s.inventory ++ [c]⟩

/-- The deposit handler (main.ts lines 586-601): if the inventory is
non-empty, `pop` its last coin and `push` it onto the end of the cache's
coin list; otherwise nothing happens. -/
def deposit (s : GameState) : GameState :=
  match s.inventory.getLast? with
  | none => s
  | some c => ⟨⟨s.cache.coins ++ [c], s.cache.position⟩, s.inventory.dropLast⟩

/-- All coins in play, as a multiset: the cache's and the inventory's. -/
def coinMultiset (s : GameState) : Multiset Coin :=
  ((s.cache.coins ++ s.inventory : List Coin) : Multiset Coin)

theorem natDigitsAux_fuel (fuel1 fuel2 n : Nat) (h1 : n < fuel1) (h2 : n < fuel2) :
    natDigitsAux fuel1 n = natDigitsAux fuel2 n := by
  induction fuel1 generalizing fuel2 n with
  | zero => omega
  | succ f ih =>
    cases fuel2 with
    | zero => omega
    | succ f2 =>
      show (if n < 10 then [digitChar n] else natDigitsAux f (n / 10) ++ [digitChar (n % 10)])
        = (if n < 10 then [digitChar n] else natDigitsAux f2 (n / 10) ++ [digitChar (n % 10)])
      by_cases hn : n < 10
      · rw [if_pos hn, if_pos hn]
      · rw [if_neg hn, if_neg hn, ih f2 (n / 10) (by omega) (by omega)]

/-- The one-step unfolding of `natDigits`. -/
theorem natDigits_eq (n : Nat) :
    natDigits n = if n < 10 then [digitChar n]
      else natDigits (n / 10) ++ [digitChar (n % 10)] := by
  show (if n < 10 then [digitChar n] else natDigitsAux n (n / 10) ++ [digitChar (n % 10)]) = _
  by_cases hn : n < 10
  · rw [if_pos hn, if_pos hn]
  · rw [if_neg hn, if_neg hn,
      natDigitsAux_fuel n (n / 10 + 1) (n / 10) (by omega) (by omega)]
    rfl

theorem digitVal_digitChar (n : Nat) (h : n < 10) : digitVal (digitChar n) = n := by
  interval_cases n <;> rfl

theorem isDigit_digitChar (n : Nat) (h : n < 10) : (digitChar n).isDigit = true := by
  interval_cases n <;> rfl

theorem ofDigitsAux_append (acc : Nat) (xs ys : List Char) :
    ofDigitsAux acc (xs ++ ys) = ofDigitsAux (ofDigitsAux acc xs) ys := by
  induction xs generalizing acc with
  | nil => rfl
  | cons c cs ih =>
    show ofDigitsAux (acc * 10 + digitVal c) (cs ++ ys) = _
    rw [ih]
    rfl

theorem natDigits_ne_nil (n : Nat) : natDigits n ≠ [] := by
  rw [natDigits_eq]
  split <;> simp

theorem natDigits_all_digits (n : Nat) : ∀ c ∈ natDigits n, c.isDigit = true := by
  induction n using Nat.strong_induction_on with
  | _ n ih =>
    rw [natDigits_eq]
    split
    · next h =>
      intro c hc
      simp only [List.mem_singleton] at hc
      subst hc
      exact isDigit_digitChar n h
    · next h =>
      intro c hc
      simp only [List.mem_append, List.mem_singleton] at hc
      rcases hc with hc | hc
      · exact ih (n / 10) (Nat.div_lt_self (by omega) (by omega)) c hc
      · subst hc
        exact isDigit_digitChar _ (Nat.mod_lt _ (by omega))

theorem ofDigitsAux_natDigits (n : Nat) :
    ∀ acc, ofDigitsAux acc (natDigits n) = acc * 10 ^ (natDigits n).length + n := by
  induction n using Nat.strong_induction_on with
  | _ n ih =>
    intro acc
    rw [natDigits_eq]
    split
    · next h =>
      rw [List.length_singleton, pow_one]
      show ofDigitsAux (acc * 10 + digitVal (digitChar n)) [] = acc * 10 + n
      rw [digitVal_digitChar n h]
      rfl
    · next h =>
      rw [List.length_append, List.length_singleton, pow_succ, ← mul_assoc,
        ofDigitsAux_append, ih (n / 10) (Nat.div_lt_self (by omega) (by omega))]
      show ofDigitsAux ((acc * 10 ^ (natDigits (n / 10)).length + n / 10) * 10 +
        digitVal (digitChar (n % 10))) []
        = acc * 10 ^ (natDigits (n / 10)).length * 10 + n
      rw [digitVal_digitChar (n % 10) (Nat.mod_lt _ (by omega))]
      show (acc * 10 ^ (natDigits (n / 10)).length + n / 10) * 10 + n % 10
        = acc * 10 ^ (natDigits (n / 10)).length * 10 + n
      generalize acc * 10 ^ (natDigits (n / 10)).length = M
      omega

theorem ofDigits_natDigits (n : Nat) : ofDigitsAux 0 (natDigits n) = n := by
  simpa using ofDigitsAux_natDigits n 0

theorem natDigits_injective (m n : Nat) (h : natDigits m = natDigits n) : m = n := by
  have h1 := ofDigits_natDigits m
  rw [h, ofDigits_natDigits] at h1
  omega

theorem natDigits_head_digit (n : Nat) :
    ∃ d ds, natDigits n = d :: ds ∧ d.isDigit = true := by
  cases hnd : natDigits n with
  | nil => exact absurd hnd (natDigits_ne_nil n)
  | cons d ds =>
    exact ⟨d, ds, rfl, natDigits_all_digits n d (by rw [hnd]; simp)⟩

theorem intDigits_injective (i k : Int) (h : intDigits i = intDigits k) : i = k := by
  unfold intDigits at h
  split at h <;> split at h
  · next hi hk =>
    simp only [List.cons.injEq, true_and] at h
    have := natDigits_injective _ _ h
    omega
  · next hi hk =>
    obtain ⟨d, ds, hds, hd⟩ := natDigits_head_digit k.toNat
    rw [hds] at h
    simp only [List.cons.injEq] at h
    rw [← h.1] at hd
    exact absurd hd (by decide)
  · next hi hk =>
    obtain ⟨d, ds, hds, hd⟩ := natDigits_head_digit i.toNat
    rw [hds] at h
    simp only [List.cons.injEq] at h
    rw [h.1] at hd
    exact absurd hd (by decide)
  · next hi hk =>
    have := natDigits_injective _ _ h
    omega

theorem mem_natDigits_ne_comma (n : Nat) : ∀ c ∈ natDigits n, c ≠ ',' := by
  intro c hc he
  have := natDigits_all_digits n c hc
  rw [he] at this
  exact absurd this (by decide)

theorem mem_intDigits_ne_comma (i : Int) : ∀ c ∈ intDigits i, c ≠ ',' := by
  intro c hc
  unfold intDigits at hc
  split at hc
  · rcases List.mem_cons.mp hc with h | h
    · subst h; decide
    · exact mem_natDigits_ne_comma _ c h
  · exact mem_natDigits_ne_comma _ c hc

theorem append_comma_inj (a b c d : List Char)
    (ha : ∀ x ∈ a, x ≠ ',') (hc : ∀ x ∈ c, x ≠ ',')
    (h : a ++ ',' :: b = c ++ ',' :: d) : a = c ∧ b = d := by
  induction a generalizing c with
  | nil =>
    cases c with
    | nil => simpa using h
    | cons x xs =>
      simp only [List.nil_append, List.cons_append, List.cons.injEq] at h
      exact absurd h.1.symm (hc x (by simp))
  | cons x xs ih =>
    cases c with
    | nil =>
      simp only [List.cons_append, List.nil_append, List.cons.injEq] at h
      exact absurd h.1 (ha x (by simp))
    | cons y ys =>
      simp only [List.cons_append, List.cons.injEq] at h
      obtain ⟨h1, h2⟩ := h
      obtain ⟨e1, e2⟩ := ih ys (fun z hz => ha z (List.mem_cons_of_mem _ hz))
        (fun z hz => hc z (List.mem_cons_of_mem _ hz)) h2
      exact ⟨by rw [h1, e1], e2⟩

theorem parseNatLoop_digits (ds : List Char) (h : ∀ c ∈ ds, c.isDigit = true) :
    ∀ acc rest, headNonDigit rest = true →
      parseNatLoop acc (ds ++ rest) = (ofDigitsAux acc ds, rest) := by
  induction ds with
  | nil =>
    intro acc rest hrest
    cases rest with
    | nil => rfl
    | cons c cs =>
      simp only [headNonDigit, Bool.not_eq_true'] at hrest
      show (if c.isDigit = true then parseNatLoop (acc * 10 + digitVal c) cs
        else (acc, c :: cs)) = (ofDigitsAux acc [], c :: cs)
      rw [if_neg (by rw [hrest]; exact Bool.false_ne_true)]
      rfl
  | cons d ds ih =>
    intro acc rest hrest
    have hd : d.isDigit = true := h d (by simp)
    show (if d.isDigit = true then parseNatLoop (acc * 10 + digitVal d) (ds ++ rest)
      else (acc, d :: (ds ++ rest))) = (ofDigitsAux acc (d :: ds), rest)
    rw [if_pos hd]
    exact ih (fun c hc => h c (List.mem_cons_of_mem _ hc)) _ rest hrest

theorem parseNat_natDigits (n : Nat) (rest : List Char)
    (hrest : headNonDigit rest = true) :
    parseNat (natDigits n ++ rest) = some (n, rest) := by
  obtain ⟨d, ds, hds, hd⟩ := natDigits_head_digit n
  have hall := natDigits_all_digits n
  rw [hds] at hall ⊢
  show (if d.isDigit = true then some (parseNatLoop (digitVal d) (ds ++ rest))
    else none) = some (n, rest)
  rw [if_pos hd,
    parseNatLoop_digits ds (fun c hc => hall c (List.mem_cons_of_mem _ hc)) _ rest hrest]
  have h1 := ofDigits_natDigits n
  rw [hds] at h1
  have h0 : ofDigitsAux (0 * 10 + digitVal d) ds = n := h1
  simp only [Nat.zero_mul, Nat.zero_add] at h0
  rw [h0]

theorem parseInt_neg_head (cs : List Char) :
    parseInt ('-' :: cs) = (parseNat cs).map (fun p => (-(p.1 : Int), p.2)) := by
  show (if ('-' : Char) = '-' then (parseNat cs).map (fun p => (-(p.1 : Int), p.2))
    else (parseNat ('-' :: cs)).map (fun p => ((p.1 : Int), p.2)))
    = (parseNat cs).map (fun p => (-(p.1 : Int), p.2))
  rw [if_pos rfl]

theorem parseInt_dig_head (c : Char) (cs : List Char) (h : ¬(c = '-')) :
    parseInt (c :: cs) = (parseNat (c :: cs)).map (fun p => ((p.1 : Int), p.2)) := by
  show (if c = '-' then (parseNat cs).map (fun p => (-(p.1 : Int), p.2))
    else (parseNat (c :: cs)).map (fun p => ((p.1 : Int), p.2)))
    = (parseNat (c :: cs)).map (fun p => ((p.1 : Int), p.2))
  rw [if_neg h]

theorem parseInt_intDigits (i : Int) (rest : List Char)
    (hrest : headNonDigit rest = true) :
    parseInt (intDigits i ++ rest) = some (i, rest) := by
  by_cases hi : i < 0
  · rw [show intDigits i = '-' :: natDigits i.natAbs from by
      unfold intDigits
      rw [if_pos hi]]
    rw [List.cons_append, parseInt_neg_head, parseNat_natDigits _ _ hrest]
    show some (-(i.natAbs : Int), rest) = some (i, rest)
    have he : -((i.natAbs : Int)) = i := by omega
    rw [he]
  · unfold intDigits
    rw [if_neg hi]
    obtain ⟨d, ds, hds, hd⟩ := natDigits_head_digit i.toNat
    have hne : ¬(d = '-') := fun h => absurd (h ▸ hd) (by decide)
    rw [hds, List.cons_append, parseInt_dig_head d _ hne, ← List.cons_append, ← hds,
      parseNat_natDigits _ _ hrest]
    show some ((i.toNat : Int), rest) = some (i, rest)
    have he : ((i.toNat : Int)) = i := by omega
    rw [he]

theorem cellKey_injective (c d : Cell) (h : cellKey c = cellKey d) : c = d := by
  have h2 : intDigits c.i ++ ',' :: intDigits c.j
      = intDigits d.i ++ ',' :: intDigits d.j := congrArg String.data h
  obtain ⟨e1, e2⟩ := append_comma_inj _ _ _ _
    (mem_intDigits_ne_comma c.i) (mem_intDigits_ne_comma d.i) h2
  have hi := intDigits_injective _ _ e1
  have hj := intDigits_injective _ _ e2
  cases c
  cases d
  simp_all

theorem lookup_cons_self {β : Type _} (a : String) (v : β) (l : List (String × β)) :
    List.lookup a ((a, v) :: l) = some v := by
  simp [List.lookup_cons]

theorem lookup_cons_ne {β : Type _} (k a : String) (v : β) (l : List (String × β))
    (h : ¬(k = a)) : List.lookup k ((a, v) :: l) = List.lookup k l := by
  simp [List.lookup_cons, beq_false_of_ne h]

theorem lookup_mem {β : Type _} (l : List (String × β)) (k : String) (v : β)
    (h : l.lookup k = some v) : (k, v) ∈ l := by
  induction l with
  | nil => cases h
  | cons p l ih =>
    obtain ⟨a, w⟩ := p
    by_cases hk : k = a
    · subst hk
      rw [lookup_cons_self] at h
      cases h
      exact List.mem_cons_self _ _
    · rw [lookup_cons_ne _ _ _ _ hk] at h
      exact List.mem_cons_of_mem _ (ih h)

theorem getCanonicalCell_hit (b : Board) (cell c0 : Cell)
    (h : b.knownCells.lookup (cellKey cell) = some c0) :
    getCanonicalCell b cell = (c0, b) := by
  unfold getCanonicalCell
  rw [h]

theorem getCanonicalCell_miss (b : Board) (cell : Cell)
    (h : b.knownCells.lookup (cellKey cell) = none) :
    getCanonicalCell b cell =
      (cell, ⟨b.tileWidth, b.tileVisibilityRadius,
        (cellKey cell, cell) :: b.knownCells⟩) := by
  unfold getCanonicalCell
  rw [h]

theorem getCanonicalCell_preserves (b : Board) (cell : Cell) (k : String) (v : Cell)
    (h : b.knownCells.lookup k = some v) :
    ((getCanonicalCell b cell).2).knownCells.lookup k = some v := by
  cases hl : b.knownCells.lookup (cellKey cell) with
  | some c0 => rw [getCanonicalCell_hit b cell c0 hl]; exact h
  | none =>
    rw [getCanonicalCell_miss b cell hl]
    have hk : ¬(k = cellKey cell) := by
      intro he
      rw [he, hl] at h
      cases h
    show List.lookup k ((cellKey cell, cell) :: b.knownCells) = some v
    rw [lookup_cons_ne _ _ _ _ hk]
    exact h

theorem getCanonicalCell_establishes (b : Board) (cell : Cell) :
    ((getCanonicalCell b cell).2).knownCells.lookup (cellKey cell)
      = some ((getCanonicalCell b cell).1) := by
  cases hl : b.knownCells.lookup (cellKey cell) with
  | some c0 => rw [getCanonicalCell_hit b cell c0 hl]; exact hl
  | none =>
    rw [getCanonicalCell_miss b cell hl]
    exact lookup_cons_self _ _ _

theorem getCanonicalCell_wf (b : Board) (cell : Cell) (hwf : BoardWF b) :
    (getCanonicalCell b cell).1 = cell ∧ BoardWF (getCanonicalCell b cell).2 := by
  cases hl : b.knownCells.lookup (cellKey cell) with
  | some c0 =>
    rw [getCanonicalCell_hit b cell c0 hl]
    have hmem := lookup_mem _ _ _ hl
    have hkey := hwf _ hmem
    exact ⟨(cellKey_injective _ _ hkey.symm).symm ▸ rfl, hwf⟩
  | none =>
    rw [getCanonicalCell_miss b cell hl]
    refine ⟨rfl, ?_⟩
    intro kv hkv
    rcases List.mem_cons.mp hkv with h | h
    · rw [h]
    · exact hwf _ h

theorem getCanonicalCell_params (b : Board) (cell : Cell) :
    ((getCanonicalCell b cell).2).tileWidth = b.tileWidth
    ∧ ((getCanonicalCell b cell).2).tileVisibilityRadius = b.tileVisibilityRadius := by
  cases hl : b.knownCells.lookup (cellKey cell) with
  | some c0 => rw [getCanonicalCell_hit b cell c0 hl]; exact ⟨rfl, rfl⟩
  | none => rw [getCanonicalCell_miss b cell hl]; exact ⟨rfl, rfl⟩

theorem getCellForPoint_preserves (b : Board) (p : LatLng) (k : String) (v : Cell)
    (h : b.knownCells.lookup k = some v) :
    ((getCellForPoint b p).2).knownCells.lookup k = some v :=
  getCanonicalCell_preserves b _ k v h

theorem getCellForPoint_wf (b : Board) (p : LatLng) (hwf : BoardWF b) :
    (getCellForPoint b p).1 = ⟨⌊p.lat / b.tileWidth⌋, ⌊p.lng / b.tileWidth⌋⟩
    ∧ BoardWF (getCellForPoint b p).2 :=
  getCanonicalCell_wf b _ hwf

theorem foldl_lookup_preserved (step : List Cell × Board → Int → List Cell × Board)
    (hstep : ∀ acc x k v, acc.2.knownCells.lookup k = some v →
      (step acc x).2.knownCells.lookup k = some v)
    (l : List Int) (acc : List Cell × Board) (k : String) (v : Cell)
    (h : acc.2.knownCells.lookup k = some v) :
    (l.foldl step acc).2.knownCells.lookup k = some v := by
  induction l generalizing acc with
  | nil => exact h
  | cons x xs ih => exact ih _ (hstep _ _ _ _ h)

theorem nearStep_preserves (oi oj di : Int) :
    ∀ (acc : List Cell × Board) (dj : Int) (k : String) (v : Cell),
      acc.2.knownCells.lookup k = some v →
      (nearStep oi oj di acc dj).2.knownCells.lookup k = some v := by
  intro acc dj k v h
  exact getCanonicalCell_preserves _ _ _ _ h

theorem getCellsNearPoint_preserves (b : Board) (p : LatLng) (k : String) (v : Cell)
    (h : b.knownCells.lookup k = some v) :
    ((getCellsNearPoint b p).2).knownCells.lookup k = some v := by
  refine foldl_lookup_preserved _ ?_ _ _ k v (getCellForPoint_preserves b p k v h)
  intro acc x k2 v2 h2
  exact foldl_lookup_preserved _ (nearStep_preserves _ _ _) _ _ _ _ h2

theorem nearStep_char (oi oj di dj : Int) (acc : List Cell × Board)
    (h : BoardWF acc.2) :
    (nearStep oi oj di acc dj).1 = acc.1 ++ [⟨oi + di, oj + dj⟩]
    ∧ BoardWF (nearStep oi oj di acc dj).2 := by
  obtain ⟨h1, h2⟩ := getCanonicalCell_wf acc.2 ⟨oi + di, oj + dj⟩ h
  refine ⟨?_, h2⟩
  show acc.1 ++ [(getCanonicalCell acc.2 ⟨oi + di, oj + dj⟩).1]
    = acc.1 ++ [⟨oi + di, oj + dj⟩]
  rw [h1]

theorem nearRow_def (oi oj : Int) (r : Nat) (acc : List Cell × Board) (di : Int) :
    nearRow oi oj r acc di = (visOffsets r).foldl (nearStep oi oj di) acc := rfl

theorem foldl_nearStep_char (oi oj di : Int) (l : List Int) :
    ∀ acc : List Cell × Board, BoardWF acc.2 →
      (l.foldl (nearStep oi oj di) acc).1
        = acc.1 ++ l.map (fun dj => (⟨oi + di, oj + dj⟩ : Cell))
      ∧ BoardWF (l.foldl (nearStep oi oj di) acc).2 := by
  induction l with
  | nil =>
    intro acc h
    exact ⟨by simp, h⟩
  | cons x xs ih =>
    intro acc h
    obtain ⟨h1, h2⟩ := nearStep_char oi oj di x acc h
    obtain ⟨h3, h4⟩ := ih _ h2
    refine ⟨?_, h4⟩
    rw [List.foldl_cons, h3, h1]
    simp

theorem foldl_nearRow_char (oi oj : Int) (r : Nat) (l : List Int) :
    ∀ acc : List Cell × Board, BoardWF acc.2 →
      (l.foldl (nearRow oi oj r) acc).1
        = acc.1 ++ l.flatMap (fun di =>
            (visOffsets r).map (fun dj => (⟨oi + di, oj + dj⟩ : Cell)))
      ∧ BoardWF (l.foldl (nearRow oi oj r) acc).2 := by
  induction l with
  | nil =>
    intro acc h
    exact ⟨by simp, h⟩
  | cons x xs ih =>
    intro acc h
    obtain ⟨h1, h2⟩ := foldl_nearStep_char oi oj x (visOffsets r) acc h
    obtain ⟨h3, h4⟩ := ih _ h2
    refine ⟨?_, ?_⟩
    · rw [List.foldl_cons, nearRow_def, h3, h1]
      simp
    · rw [List.foldl_cons]
      exact h4

theorem getCellsNearPoint_char (b : Board) (p : LatLng) (hwf : BoardWF b) :
    (getCellsNearPoint b p).1
      = (visOffsets b.tileVisibilityRadius).flatMap (fun di =>
          (visOffsets b.tileVisibilityRadius).map (fun dj =>
            (⟨⌊p.lat / b.tileWidth⌋ + di, ⌊p.lng / b.tileWidth⌋ + dj⟩ : Cell)))
      ∧ BoardWF (getCellsNearPoint b p).2 := by
  obtain ⟨h1, h2⟩ := getCellForPoint_wf b p hwf
  obtain ⟨h3, h4⟩ :=
    foldl_nearRow_char (getCellForPoint b p).1.i (getCellForPoint b p).1.j
      b.tileVisibilityRadius (visOffsets b.tileVisibilityRadius)
      ([], (getCellForPoint b p).2) h2
  constructor
  · show ((visOffsets b.tileVisibilityRadius).foldl
        (nearRow (getCellForPoint b p).1.i (getCellForPoint b p).1.j
          b.tileVisibilityRadius)
        ([], (getCellForPoint b p).2)).1 = _
    rw [h3, h1]
    simp
  · exact h4

/-- Claim C2: for every coordinate pair, the registry's canonicalization
returns the cell stored under the key `"i,j"`: an existing binding is never
replaced by `getCanonicalCell` (nor by `getCellForPoint` or
`getCellsNearPoint`), a hit returns the stored cell and leaves the registry
untouched, and a first call stores exactly the returned cell — so the value
returned for a pair of coordinates is the same one cell object for the
lifetime of the `Board`, making reference equality coincide with value
equality of coordinates (the last conjunct: under the registry invariant the
canonical cell carries exactly the requested coordinates). -/
theorem claim_C2 (b : Board) :
    (∀ cell k v, b.knownCells.lookup k = some v →
        ((getCanonicalCell b cell).2).knownCells.lookup k = some v)
    ∧ (∀ p k v, b.knownCells.lookup k = some v →
        ((getCellForPoint b p).2).knownCells.lookup k = some v)
    ∧ (∀ p k v, b.knownCells.lookup k = some v →
        ((getCellsNearPoint b p).2).knownCells.lookup k = some v)
    ∧ (∀ cell c0, b.knownCells.lookup (cellKey cell) = some c0 →
        getCanonicalCell b cell = (c0, b))
    ∧ (∀ cell, ((getCanonicalCell b cell).2).knownCells.lookup (cellKey cell)
        = some ((getCanonicalCell b cell).1))
    ∧ (BoardWF b → ∀ cell, (getCanonicalCell b cell).1 = cell
        ∧ BoardWF (getCanonicalCell b cell).2) := by
  refine ⟨?_, ?_, ?_, ?_, ?_, ?_⟩
  · intro cell k v h
    exact getCanonicalCell_preserves b cell k v h
  · intro p k v h
    exact getCellForPoint_preserves b p k v h
  · intro p k v h
    exact getCellsNearPoint_preserves b p k v h
  · intro cell c0 h
    exact getCanonicalCell_hit b cell c0 h
  · intro cell
    exact getCanonicalCell_establishes b cell
  · intro hwf cell
    exact getCanonicalCell_wf b cell hwf

theorem claim_C2_witness :
    ((Board.mk 1 0 [("0,0", Cell.mk 0 0)]).knownCells.lookup "0,0"
        = some (Cell.mk 0 0))
    ∧ ((getCanonicalCell (Board.mk 1 0 [("0,0", Cell.mk 0 0)]) ⟨5, 6⟩).2).knownCells.lookup
        "0,0" = some (Cell.mk 0 0)
    ∧ getCanonicalCell (Board.mk 1 0 [("0,0", Cell.mk 0 0)]) ⟨0, 0⟩
        = (Cell.mk 0 0, Board.mk 1 0 [("0,0", Cell.mk 0 0)]) := by
  refine ⟨by decide, ?_, ?_⟩
  · exact (claim_C2 _).1 ⟨5, 6⟩ "0,0" _ (by decide)
  · exact (claim_C2 _).2.2.2.1 ⟨0, 0⟩ _ (by decide)

/-- Claim C8: `getCellForPoint` returns the canonical cell whose coordinates
are the floors of the point's coordinates divided by the tile width, and —
for a positive tile width — every point inside the half-open tile of a cell
`(i, j)` (negative coordinates included) maps to exactly that cell, so the
result is invariant under any shift of the point within the tile bounds. -/
theorem claim_C8 (b : Board) (hwf : BoardWF b) :
    (∀ p : LatLng, (getCellForPoint b p).1
        = ⟨⌊p.lat / b.tileWidth⌋, ⌊p.lng / b.tileWidth⌋⟩)
    ∧ (0 < b.tileWidth → ∀ (i j : Int) (p : LatLng),
        (i : ℚ) * b.tileWidth ≤ p.lat → p.lat < ((i : ℚ) + 1) * b.tileWidth →
        (j : ℚ) * b.tileWidth ≤ p.lng → p.lng < ((j : ℚ) + 1) * b.tileWidth →
        (getCellForPoint b p).1 = ⟨i, j⟩) := by
  constructor
  · intro p
    exact (getCellForPoint_wf b p hwf).1
  · intro hw i j p h1 h2 h3 h4
    rw [(getCellForPoint_wf b p hwf).1]
    have hi : ⌊p.lat / b.tileWidth⌋ = i := by
      rw [Int.floor_eq_iff]
      exact ⟨(le_div_iff₀ hw).mpr h1, (div_lt_iff₀ hw).mpr h2⟩
    have hj : ⌊p.lng / b.tileWidth⌋ = j := by
      rw [Int.floor_eq_iff]
      exact ⟨(le_div_iff₀ hw).mpr h3, (div_lt_iff₀ hw).mpr h4⟩
    rw [hi, hj]

theorem claim_C8_witness :
    BoardWF (Board.new (1 / 10000) 8)
    ∧ (0 : ℚ) < (1 / 10000 : ℚ)
    ∧ (getCellForPoint (Board.new (1 / 10000) 8) ⟨-3 / 20000, 5 / 20000⟩).1
        = ⟨-2, 2⟩ := by
  refine ⟨by decide, by norm_num, ?_⟩
  exact (claim_C8 (Board.new (1 / 10000) 8) (by decide)).2 (by norm_num [Board.new]) (-2) 2
    ⟨-3 / 20000, 5 / 20000⟩ (by norm_num [Board.new]) (by norm_num [Board.new])
    (by norm_num [Board.new]) (by norm_num [Board.new])

/-- Claim C9: for a well-formed registry, `getCellsNearPoint` returns
exactly the square of cells `(oi + di, oj + dj)` for `di, dj` ranging over
the offsets `-r, ..., r` (with `(oi, oj)` the point's origin cell), in
row-major scan order — `di` in the outer position ascending, `dj` in the
inner position ascending — and the result has `(2r+1)^2` cells; the last two
conjuncts pin the offset list down as exactly the ascending enumeration of
`[-r, r]`. -/
theorem length_flatMap_const {α β : Type _} (l : List α) (f : α → List β) (n : Nat)
    (h : ∀ a ∈ l, (f a).length = n) : (l.flatMap f).length = l.length * n := by
  induction l with
  | nil => simp
  | cons x xs ih =>
    rw [List.flatMap_cons, List.length_append, h x (by simp),
      ih (fun a ha => h a (by simp [ha])), List.length_cons]
    ring

theorem mem_visOffsets (r : Nat) (d : Int) :
    d ∈ visOffsets r ↔ -(r : Int) ≤ d ∧ d ≤ r := by
  unfold visOffsets
  rw [List.mem_map]
  constructor
  · rintro ⟨a, ha, rfl⟩
    rw [List.mem_range] at ha
    omega
  · rintro ⟨hd1, hd2⟩
    refine ⟨(d + r).toNat, ?_, ?_⟩
    · rw [List.mem_range]
      omega
    · omega

theorem visOffsets_length (r : Nat) : (visOffsets r).length = 2 * r + 1 := by
  unfold visOffsets
  rw [List.length_map, List.length_range]

theorem claim_C9 (b : Board) (p : LatLng) (hwf : BoardWF b) :
    (getCellsNearPoint b p).1
      = (visOffsets b.tileVisibilityRadius).flatMap (fun di =>
          (visOffsets b.tileVisibilityRadius).map (fun dj =>
            (⟨⌊p.lat / b.tileWidth⌋ + di, ⌊p.lng / b.tileWidth⌋ + dj⟩ : Cell)))
    ∧ (getCellsNearPoint b p).1.length = (2 * b.tileVisibilityRadius + 1) ^ 2
    ∧ (∀ d : Int, d ∈ visOffsets b.tileVisibilityRadius ↔
        -(b.tileVisibilityRadius : Int) ≤ d ∧ d ≤ b.tileVisibilityRadius)
    ∧ (visOffsets b.tileVisibilityRadius).Pairwise (· < ·) := by
  obtain ⟨h1, -⟩ := getCellsNearPoint_char b p hwf
  refine ⟨h1, ?_, ?_, ?_⟩
  · rw [h1, length_flatMap_const _ _ (2 * b.tileVisibilityRadius + 1)
      (fun a _ => by rw [List.length_map, visOffsets_length]),
      visOffsets_length, pow_two]
  · intro d
    exact mem_visOffsets _ d
  · refine List.Pairwise.map _ ?_ (List.pairwise_lt_range _)
    intro a c hac
    omega

theorem claim_C9_witness :
    BoardWF (Board.new 1 1)
    ∧ (getCellsNearPoint (Board.new 1 1) ⟨3 / 2, -1 / 2⟩).1
      = [⟨0, -2⟩, ⟨0, -1⟩, ⟨0, 0⟩, ⟨1, -2⟩, ⟨1, -1⟩, ⟨1, 0⟩,
         ⟨2, -2⟩, ⟨2, -1⟩, ⟨2, 0⟩] := by
  refine ⟨by decide, ?_⟩
  rw [(claim_C9 (Board.new 1 1) ⟨3 / 2, -1 / 2⟩ (by decide)).1]
  norm_num [Board.new, visOffsets, List.range_succ]

/-- Claim C1: `generateCache` is a pure, deterministic function of the cell
and the luck function: the position is the given cell, the coin count is
`ceil(luck("i,j") * 25)`, the coins carry serial numbers `0..count-1` in
that order, each tagged with the originating cell, and two calls on the
same cell produce identical caches (in the model the call is a function
application, so the final conjunct is definitional purity). -/
theorem claim_C1 (luck : String → ℚ) (cell : Cell)
    (hpos : 0 ≤ luck (cellKey cell)) :
    (generateCache luck cell).position = cell
    ∧ ((generateCache luck cell).coins.length : Int)
        = ⌈luck (cellKey cell) * COIN_PROBABILITY⌉
    ∧ (generateCache luck cell).coins
        = (List.range (generateCache luck cell).coins.length).map
            (fun k => ⟨cell, k⟩)
    ∧ generateCache luck cell = generateCache luck cell := by
  have hc : (0 : Int) ≤ ⌈luck (cellKey cell) * COIN_PROBABILITY⌉ :=
    Int.ceil_nonneg (mul_nonneg hpos (by norm_num [COIN_PROBABILITY]))
  refine ⟨rfl, ?_, ?_, rfl⟩
  · show (((List.range (⌈luck (cellKey cell) * COIN_PROBABILITY⌉).toNat).map
        (fun k => (⟨cell, k⟩ : Coin))).length : Int) = _
    rw [List.length_map, List.length_range, Int.toNat_of_nonneg hc]
  · show (List.range (⌈luck (cellKey cell) * COIN_PROBABILITY⌉).toNat).map
        (fun k => (⟨cell, k⟩ : Coin))
      = (List.range (((List.range
          (⌈luck (cellKey cell) * COIN_PROBABILITY⌉).toNat).map
            (fun k => (⟨cell, k⟩ : Coin))).length)).map (fun k => ⟨cell, k⟩)
    rw [List.length_map, List.length_range]

theorem claim_C1_witness :
    (0 : ℚ) ≤ (fun _ : String => (1 : ℚ) / 2) (cellKey ⟨0, 0⟩)
    ∧ (generateCache (fun _ => (1 : ℚ) / 2) ⟨0, 0⟩).position = ⟨0, 0⟩
    ∧ ((generateCache (fun _ => (1 : ℚ) / 2) ⟨0, 0⟩).coins.length : Int)
        = ⌈(1 : ℚ) / 2 * COIN_PROBABILITY⌉ := by
  exact ⟨by norm_num, (claim_C1 (fun _ => (1 : ℚ) / 2) ⟨0, 0⟩ (by norm_num)).1,
    (claim_C1 (fun _ => (1 : ℚ) / 2) ⟨0, 0⟩ (by norm_num)).2.1⟩

/-- Claim C7: among the cells in the visibility neighborhood, a cache is
spawned at a cell if and only if its luck value is strictly below the spawn
probability `CACHE_SPAWN_PROBABILITY = 0.1`; in particular a nearby cell
whose luck value is `0.05` spawns a cache and a cell whose luck value is
`0.5` does not. -/
theorem claim_C7 (luck : String → ℚ) (b : Board) (p : LatLng) (cell : Cell) :
    (cell ∈ updateLocalCachesSpawns luck b p ↔
      cell ∈ (getCellsNearPoint b p).1
        ∧ luck (cellKey cell) < CACHE_SPAWN_PROBABILITY)
    ∧ (luck (cellKey cell) = 1 / 20 → cell ∈ (getCellsNearPoint b p).1 →
        cell ∈ updateLocalCachesSpawns luck b p)
    ∧ (luck (cellKey cell) = 1 / 2 → cell ∉ updateLocalCachesSpawns luck b p) := by
  have hmem : cell ∈ updateLocalCachesSpawns luck b p ↔
      cell ∈ (getCellsNearPoint b p).1
        ∧ luck (cellKey cell) < CACHE_SPAWN_PROBABILITY := by
    unfold updateLocalCachesSpawns
    rw [List.mem_filter]
    simp only [decide_eq_true_eq]
  refine ⟨hmem, ?_, ?_⟩
  · intro hl hc
    refine hmem.mpr ⟨hc, ?_⟩
    rw [hl]
    norm_num [CACHE_SPAWN_PROBABILITY]
  · intro hl hc
    have hlt := (hmem.mp hc).2
    rw [hl] at hlt
    norm_num [CACHE_SPAWN_PROBABILITY] at hlt

theorem claim_C7_witness :
    ((fun _ : String => (1 : ℚ) / 20) (cellKey ⟨0, 0⟩) = 1 / 20
      ∧ ⟨0, 0⟩ ∈ updateLocalCachesSpawns (fun _ => (1 : ℚ) / 20)
          (Board.new 1 0) ⟨0, 0⟩)
    ∧ ((fun _ : String => (1 : ℚ) / 2) (cellKey ⟨0, 0⟩) = 1 / 2
      ∧ ⟨0, 0⟩ ∉ updateLocalCachesSpawns (fun _ => (1 : ℚ) / 2)
          (Board.new 1 0) ⟨0, 0⟩) := by
  constructor
  · refine ⟨rfl, ?_⟩
    refine (claim_C7 (fun _ => (1 : ℚ) / 20) (Board.new 1 0) ⟨0, 0⟩ ⟨0, 0⟩).2.1
      rfl ?_
    rw [(getCellsNearPoint_char (Board.new 1 0) ⟨0, 0⟩ (by decide)).1]
    norm_num [Board.new, visOffsets, List.range_succ]
  · exact ⟨rfl, (claim_C7 (fun _ => (1 : ℚ) / 2) (Board.new 1 0) ⟨0, 0⟩
      ⟨0, 0⟩).2.2 rfl⟩

/-- Claim C6: withdrawing from a cache with no coins and depositing from an
empty inventory are silent no-ops leaving both the cache and the inventory
unchanged, and on a cache with three coins and an empty inventory a single
withdraw leaves 2 coins in the cache and 1 in the inventory, after which a
single deposit restores 3 coins in the cache and empties the inventory. -/
theorem claim_C6 (s : GameState) :
    (s.cache.coins = [] → withdraw s = s)
    ∧ (s.inventory = [] → deposit s = s)
    ∧ (∀ pos a b c, s = ⟨⟨[a, b, c], pos⟩, []⟩ →
        (withdraw s).cache.coins.length = 2
        ∧ (withdraw s).inventory.length = 1
        ∧ (deposit (withdraw s)).cache.coins.length = 3
        ∧ (deposit (withdraw s)).inventory = []) := by
  refine ⟨?_, ?_, ?_⟩
  · intro h
    cases s with
    | mk cache inventory =>
      cases cache with
      | mk coins pos =>
        simp only at h
        subst h
        rfl
  · intro h
    cases s with
    | mk cache inventory =>
      simp only at h
      subst h
      rfl
  · intro pos a b c h
    subst h
    exact ⟨rfl, rfl, rfl, rfl⟩

theorem claim_C6_witness :
    withdraw ⟨⟨[], ⟨0, 0⟩⟩, [⟨⟨0, 0⟩, 0⟩]⟩ = ⟨⟨[], ⟨0, 0⟩⟩, [⟨⟨0, 0⟩, 0⟩]⟩
    ∧ deposit ⟨⟨[⟨⟨0, 0⟩, 0⟩], ⟨0, 0⟩⟩, []⟩ = ⟨⟨[⟨⟨0, 0⟩, 0⟩], ⟨0, 0⟩⟩, []⟩
    ∧ (withdraw ⟨⟨[⟨⟨0, 0⟩, 0⟩, ⟨⟨0, 0⟩, 1⟩, ⟨⟨0, 0⟩, 2⟩], ⟨0, 0⟩⟩,
        []⟩).cache.coins.length = 2
    ∧ (deposit (withdraw ⟨⟨[⟨⟨0, 0⟩, 0⟩, ⟨⟨0, 0⟩, 1⟩, ⟨⟨0, 0⟩, 2⟩], ⟨0, 0⟩⟩,
        []⟩)).cache.coins.length = 3 := by
  refine ⟨(claim_C6 _).1 rfl, (claim_C6 _).2.1 rfl, ?_, ?_⟩
  · exact ((claim_C6 _).2.2 ⟨0, 0⟩ ⟨⟨0, 0⟩, 0⟩ ⟨⟨0, 0⟩, 1⟩ ⟨⟨0, 0⟩, 2⟩ rfl).1
  · exact ((claim_C6 _).2.2 ⟨0, 0⟩ ⟨⟨0, 0⟩, 0⟩ ⟨⟨0, 0⟩, 1⟩ ⟨⟨0, 0⟩, 2⟩ rfl).2.2.1

/-- Claim C10: withdraw and deposit preserve the combined multiset of coins
held by the cache and the inventory: a withdraw on a non-empty cache moves
exactly the first coin of the cache's coin list to the end of the
inventory, a deposit from a non-empty inventory moves exactly the last coin
of the inventory to the end of the cache's coin list, and both operations
leave the combined coin multiset unchanged, so no coin is created,
duplicated or destroyed. -/
theorem claim_C10 (s : GameState) :
    (∀ x rest, s.cache.coins = x :: rest →
        withdraw s = ⟨⟨rest, s.cache.position⟩, s.inventory ++ [x]⟩)
    ∧ (∀ y, s.inventory.getLast? = some y →
        deposit s = ⟨⟨s.cache.coins ++ [y], s.cache.position⟩,
          s.inventory.dropLast⟩)
    ∧ coinMultiset (withdraw s) = coinMultiset s
    ∧ coinMultiset (deposit s) = coinMultiset s := by
  refine ⟨?_, ?_, ?_, ?_⟩
  · intro x rest h
    unfold withdraw
    rw [h]
  · intro y h
    unfold deposit
    rw [h]
  · cases hc : s.cache.coins with
    | nil =>
      unfold withdraw
      rw [hc]
    | cons x rest =>
      unfold withdraw coinMultiset
      rw [hc]
      show ((rest ++ (s.inventory ++ [x]) : List Coin) : Multiset Coin)
        = ((x :: rest ++ s.inventory : List Coin) : Multiset Coin)
      rw [Multiset.coe_eq_coe, ← List.append_assoc]
      exact List.perm_append_singleton x (rest ++ s.inventory)
  · cases hl : s.inventory.getLast? with
    | none =>
      unfold deposit
      rw [hl]
    | some y =>
      unfold deposit coinMultiset
      rw [hl]
      show ((s.cache.coins ++ [y] ++ s.inventory.dropLast : List Coin)
          : Multiset Coin)
        = ((s.cache.coins ++ s.inventory : List Coin) : Multiset Coin)
      rw [Multiset.coe_eq_coe, List.append_assoc]
      have h2 : s.inventory.dropLast ++ [y] = s.inventory :=
        List.dropLast_append_getLast? y hl
      have h3 : ([y] ++ s.inventory.dropLast).Perm (s.inventory.dropLast ++ [y]) :=
        List.perm_append_comm
      rw [h2] at h3
      exact List.Perm.append_left s.cache.coins h3

theorem claim_C10_witness :
    withdraw ⟨⟨[⟨⟨1, 2⟩, 0⟩, ⟨⟨1, 2⟩, 1⟩], ⟨1, 2⟩⟩, [⟨⟨0, 0⟩, 5⟩]⟩
      = ⟨⟨[⟨⟨1, 2⟩, 1⟩], ⟨1, 2⟩⟩, [⟨⟨0, 0⟩, 5⟩, ⟨⟨1, 2⟩, 0⟩]⟩
    ∧ deposit ⟨⟨[⟨⟨1, 2⟩, 1⟩], ⟨1, 2⟩⟩, [⟨⟨0, 0⟩, 5⟩, ⟨⟨1, 2⟩, 0⟩]⟩
      = ⟨⟨[⟨⟨1, 2⟩, 1⟩, ⟨⟨1, 2⟩, 0⟩], ⟨1, 2⟩⟩, [⟨⟨0, 0⟩, 5⟩]⟩
    ∧ coinMultiset (withdraw ⟨⟨[⟨⟨1, 2⟩, 0⟩, ⟨⟨1, 2⟩, 1⟩], ⟨1, 2⟩⟩,
        [⟨⟨0, 0⟩, 5⟩]⟩)
      = coinMultiset ⟨⟨[⟨⟨1, 2⟩, 0⟩, ⟨⟨1, 2⟩, 1⟩], ⟨1, 2⟩⟩, [⟨⟨0, 0⟩, 5⟩]⟩ := by
  refine ⟨?_, ?_, (claim_C10 _).2.2.1⟩
  · exact (claim_C10 _).1 ⟨⟨1, 2⟩, 0⟩ [⟨⟨1, 2⟩, 1⟩] rfl
  · exact (claim_C10 _).2.1 ⟨⟨1, 2⟩, 0⟩ rfl

theorem expectLit_append (lit rest : List Char) :
    expectLit lit (lit ++ rest) = some rest := by
  induction lit with
  | nil => rfl
  | cons c cs ih =>
    show (if c = c then expectLit cs (cs ++ rest) else none) = some rest
    rw [if_pos rfl, ih]

theorem headNonDigit_litJKey (l : List Char) :
    headNonDigit (litJKey ++ l) = true := rfl

theorem headNonDigit_litClose (l : List Char) :
    headNonDigit (litClose ++ l) = true := rfl

theorem headNonDigit_litSerialKey (l : List Char) :
    headNonDigit (litSerialKey ++ l) = true := rfl

theorem parseCell_cellChars (c : Cell) (rest : List Char) :
    parseCell (cellChars c ++ rest) = some (c, rest) := by
  unfold parseCell cellChars
  simp only [List.append_assoc]
  rw [expectLit_append]
  simp only [Option.bind_eq_bind, Option.some_bind]
  rw [parseInt_intDigits _ _ (headNonDigit_litJKey _)]
  simp only [Option.bind_eq_bind, Option.some_bind]
  rw [expectLit_append]
  simp only [Option.bind_eq_bind, Option.some_bind]
  rw [parseInt_intDigits _ _ (headNonDigit_litClose _)]
  simp only [Option.bind_eq_bind, Option.some_bind]
  rw [expectLit_append]
  rfl

theorem parseCoin_coinChars (k : Coin) (rest : List Char) :
    parseCoin (coinChars k ++ rest) = some (k, rest) := by
  unfold parseCoin coinChars
  simp only [List.append_assoc]
  rw [expectLit_append]
  simp only [Option.bind_eq_bind, Option.some_bind]
  rw [parseCell_cellChars]
  simp only [Option.bind_eq_bind, Option.some_bind]
  rw [expectLit_append]
  simp only [Option.bind_eq_bind, Option.some_bind]
  rw [parseNat_natDigits _ _ (headNonDigit_litClose _)]
  simp only [Option.bind_eq_bind, Option.some_bind]
  rw [expectLit_append]
  rfl

theorem coinsChars_singleton (k : Coin) : coinsChars [k] = coinChars k := rfl

theorem coinsChars_cons2 (k k2 : Coin) (ks : List Coin) :
    coinsChars (k :: k2 :: ks) = coinChars k ++ ',' :: coinsChars (k2 :: ks) := rfl

theorem coinChars_head (k : Coin) : ∃ t, coinChars k = '\x7b' :: t := ⟨_, rfl⟩

theorem coinsChars_cons_head (k : Coin) (ks : List Coin) :
    ∃ t, coinsChars (k :: ks) = '\x7b' :: t := by
  cases ks with
  | nil => exact ⟨_, rfl⟩
  | cons k2 ks2 => exact ⟨_, rfl⟩

theorem coinsChars_length_ge (coins : List Coin) :
    coins.length ≤ (coinsChars coins).length := by
  induction coins with
  | nil => simp [coinsChars]
  | cons k ks ih =>
    cases ks with
    | nil =>
      obtain ⟨t, ht⟩ := coinChars_head k
      rw [coinsChars_singleton, ht]
      simp
    | cons k2 ks2 =>
      rw [coinsChars_cons2]
      have h2 := ih
      simp only [List.length_append, List.length_cons] at h2 ⊢
      omega

theorem parseCoinsNE_succ (fuel : Nat) (s : List Char) :
    parseCoinsNE (fuel + 1) s = (do
      let (coin, s1) ← parseCoin s
      match s1 with
      | [] => none
      | c :: rest =>
        if c = ',' then do
          let (coins, s2) ← parseCoinsNE fuel rest
          pure (coin :: coins, s2)
        else if c = ']' then pure ([coin], rest)
        else none) := rfl

theorem parseCoinsNE_coinsChars (ks : List Coin) :
    ∀ (k : Coin) (rest : List Char) (fuel : Nat), ks.length < fuel →
      parseCoinsNE fuel (coinsChars (k :: ks) ++ ']' :: rest)
        = some (k :: ks, rest) := by
  induction ks with
  | nil =>
    intro k rest fuel hf
    cases fuel with
    | zero => omega
    | succ f =>
      rw [coinsChars_singleton, parseCoinsNE_succ, parseCoin_coinChars]
      simp only [Option.bind_eq_bind, Option.some_bind]
      show (if (']' : Char) = ',' then _ else if (']' : Char) = ']'
          then pure ([k], rest) else none) = some ([k], rest)
      rw [if_neg (by decide), if_pos rfl]
      rfl
  | cons k2 ks2 ih =>
    intro k rest fuel hf
    cases fuel with
    | zero => omega
    | succ f =>
      rw [coinsChars_cons2, List.append_assoc, List.cons_append,
        parseCoinsNE_succ, parseCoin_coinChars]
      simp only [Option.bind_eq_bind, Option.some_bind]
      show (if (',' : Char) = ','
          then (do
            let (coins, s2) ← parseCoinsNE f (coinsChars (k2 :: ks2) ++ ']' :: rest)
            pure (k :: coins, s2))
          else if (',' : Char) = ']'
            then pure ([k], coinsChars (k2 :: ks2) ++ ']' :: rest)
          else none)
        = some (k :: k2 :: ks2, rest)
      rw [if_pos rfl]
      have hrec := ih k2 rest f (by
        rw [List.length_cons] at hf
        omega)
      rw [hrec]
      rfl

theorem parseCoinList_coinsChars (coins : List Coin) (rest : List Char)
    (fuel : Nat) (hf : coins.length < fuel) :
    parseCoinList fuel (coinsChars coins ++ ']' :: rest) = some (coins, rest) := by
  cases coins with
  | nil =>
    show parseCoinList fuel (']' :: rest) = some ([], rest)
    show (if (']' : Char) = ']' then some (([] : List Coin), rest)
      else parseCoinsNE fuel (']' :: rest)) = some ([], rest)
    rw [if_pos rfl]
  | cons k ks =>
    obtain ⟨t, ht⟩ := coinsChars_cons_head k ks
    rw [ht, List.cons_append]
    show (if ('\x7b' : Char) = ']' then some (([] : List Coin), t ++ ']' :: rest)
      else parseCoinsNE fuel ('\x7b' :: (t ++ ']' :: rest)))
      = some (k :: ks, rest)
    rw [if_neg (by decide), ← List.cons_append, ← ht]
    exact parseCoinsNE_coinsChars ks k rest fuel (by
      rw [List.length_cons] at hf
      omega)

theorem parseCache_cacheChars (c : Cache) (rest : List Char) :
    parseCache (cacheChars c ++ rest) = some (c, rest) := by
  unfold parseCache cacheChars
  simp only [List.append_assoc, List.cons_append]
  rw [expectLit_append]
  simp only [Option.bind_eq_bind, Option.some_bind]
  rw [parseCoinList_coinsChars _ _ _ (by
    have := coinsChars_length_ge c.coins
    rw [List.length_append]
    omega)]
  simp only [Option.bind_eq_bind, Option.some_bind]
  rw [expectLit_append]
  simp only [Option.bind_eq_bind, Option.some_bind]
  rw [parseCell_cellChars]
  simp only [Option.bind_eq_bind, Option.some_bind]
  rw [expectLit_append]
  rfl

/-- The encode/decode round trip at the heart of the persistence layer. -/
theorem cache_momento_roundtrip (c : Cache) :
    cacheFromMomento (cacheToMomento c) = some c := by
  unfold cacheFromMomento cacheToMomento
  have h := parseCache_cacheChars c []
  rw [List.append_nil] at h
  show (match parseCache (cacheChars c) with
    | some (c, []) => some c
    | _ => none) = some c
  rw [h]

/-- Claim C3: decoding the encoding gives any cache back unchanged —
`cacheFromMomento (cacheToMomento c)` succeeds and returns a cache with the
same position and the same coin sequence in the same order. -/
theorem claim_C3 (c : Cache) : cacheFromMomento (cacheToMomento c) = some c :=
  cache_momento_roundtrip c

theorem cacheToMomento_ne_empty (c : Cache) : cacheToMomento c ≠ "" := by
  unfold cacheToMomento
  intro h
  have h2 : cacheChars c = [] := congrArg String.data h
  unfold cacheChars at h2
  simp [litCacheOpen] at h2

theorem loadCache_decodes (luck : String → ℚ) (storage : List (String × String))
    (cell : Cell) (c : Cache)
    (h : storage.lookup (cellKey cell) = some (cacheToMomento c)) :
    loadCache luck storage cell = some c := by
  unfold loadCache
  rw [h]
  show (if cacheToMomento c = "" then some (generateCache luck cell)
    else cacheFromMomento (cacheToMomento c)) = some c
  rw [if_neg (cacheToMomento_ne_empty c)]
  exact cache_momento_roundtrip c

theorem loadCache_miss (luck : String → ℚ) (storage : List (String × String))
    (cell : Cell) (h : storage.lookup (cellKey cell) = none) :
    loadCache luck storage cell = some (generateCache luck cell) := by
  unfold loadCache
  rw [h]

/-- Claim C4: persisted cache content takes precedence over regeneration —
if the record stored under the cell's key is the momento of a cache `c`,
`loadCache` returns exactly `c` (in particular immediately after
`storeCache c`), and the generator is consulted exactly on a lookup miss. -/
theorem claim_C4 (luck : String → ℚ) (storage : List (String × String))
    (cell : Cell) :
    (∀ c : Cache, storage.lookup (cellKey cell) = some (cacheToMomento c) →
        loadCache luck storage cell = some c)
    ∧ (∀ c : Cache, c.position = cell →
        loadCache luck (storeCache storage c) cell = some c)
    ∧ (storage.lookup (cellKey cell) = none →
        loadCache luck storage cell = some (generateCache luck cell)) := by
  refine ⟨?_, ?_, ?_⟩
  · intro c h
    exact loadCache_decodes luck storage cell c h
  · intro c h
    refine loadCache_decodes luck _ cell c ?_
    unfold storeCache
    rw [h]
    exact lookup_cons_self _ _ _
  · intro h
    exact loadCache_miss luck storage cell h

theorem claim_C4_witness :
    (Cache.mk [⟨⟨0, 0⟩, 0⟩, ⟨⟨0, 0⟩, 1⟩] ⟨0, 0⟩).position = ⟨0, 0⟩
    ∧ loadCache (fun _ => 0)
        (storeCache [] (Cache.mk [⟨⟨0, 0⟩, 0⟩, ⟨⟨0, 0⟩, 1⟩] ⟨0, 0⟩)) ⟨0, 0⟩
      = some (Cache.mk [⟨⟨0, 0⟩, 0⟩, ⟨⟨0, 0⟩, 1⟩] ⟨0, 0⟩)
    ∧ (([] : List (String × String)).lookup (cellKey ⟨0, 0⟩) = none)
    ∧ loadCache (fun _ => 0) [] ⟨0, 0⟩
      = some (generateCache (fun _ => 0) ⟨0, 0⟩) := by
  refine ⟨rfl, ?_, rfl, ?_⟩
  · exact (claim_C4 (fun _ => 0) [] ⟨0, 0⟩).2.1 _ rfl
  · exact (claim_C4 (fun _ => 0) [] ⟨0, 0⟩).2.2 rfl

/-- Claim C5 counterexample: a malformed stored record is NOT treated as
"not yet generated".  With the store mapping the key `"0,0"` to the record
`"x"` — not valid JSON, so `JSON.parse` throws on it — `loadCache` on cell
(0,0) propagates the decode failure (modelled by `none`) and in particular
does not fall back to the generated cache. -/
theorem claim_C5_counterexample :
    loadCache (fun _ => 0) [("0,0", "x")] ⟨0, 0⟩ = none
    ∧ loadCache (fun _ => 0) [("0,0", "x")] ⟨0, 0⟩
        ≠ some (generateCache (fun _ => 0) ⟨0, 0⟩) := by
  constructor
  · decide
  · decide

/-- Claim C5, amended: a persistence read of a MISSING record under the
cell's key (or of a falsy empty-string record) is treated as "not yet
generated" and `loadCache` falls back to the generator; but a present
malformed (non-decodable) record is not validated — the decode failure
propagates as an error instead of falling back. -/
theorem claim_C5 (luck : String → ℚ) (storage : List (String × String))
    (cell : Cell) :
    (storage.lookup (cellKey cell) = none →
        loadCache luck storage cell = some (generateCache luck cell))
    ∧ (storage.lookup (cellKey cell) = some "" →
        loadCache luck storage cell = some (generateCache luck cell))
    ∧ (∀ m, storage.lookup (cellKey cell) = some m → ¬(m = "") →
        cacheFromMomento m = none → loadCache luck storage cell = none) := by
  refine ⟨?_, ?_, ?_⟩
  · intro h
    exact loadCache_miss luck storage cell h
  · intro h
    unfold loadCache
    rw [h]
    show (if ("" : String) = "" then some (generateCache luck cell)
      else cacheFromMomento "") = some (generateCache luck cell)
    rw [if_pos rfl]
  · intro m h hne hdec
    unfold loadCache
    rw [h]
    show (if m = "" then some (generateCache luck cell)
      else cacheFromMomento m) = none
    rw [if_neg hne]
    exact hdec

theorem claim_C5_witness :
    (([] : List (String × String)).lookup (cellKey ⟨1, 1⟩) = none)
    ∧ loadCache (fun _ => 0) [] ⟨1, 1⟩
        = some (generateCache (fun _ => 0) ⟨1, 1⟩)
    ∧ ([("1,1", "x")].lookup (cellKey ⟨1, 1⟩) = some "x")
    ∧ loadCache (fun _ => 0) [("1,1", "x")] ⟨1, 1⟩ = none := by
  refine ⟨rfl, (claim_C5 (fun _ => 0) [] ⟨1, 1⟩).1 rfl, by decide, ?_⟩
  exact (claim_C5 (fun _ => 0) [("1,1", "x")] ⟨1, 1⟩).2.2 "x" (by decide)
    (by decide) (by decide)

end Demo3
